import Mathlib

/-!
Shallow embedding of `src/git_changelog/providers.py` (the reference-grammar
engine of git-changelog) and verification of the frozen claims.

Modelling conventions:
* Texts, captured values and URLs are `List Char` (Python `str`).
* Python regexes are embedded as an AST (`RE`) together with a backtracking
  matcher (`mrun`) that mirrors the `re` module's leftmost / ordered-alternation
  / greedy semantics.  Every pattern of the source is built compositionally
  from the same fragments as `RefRe` in the source.
* The character classes are the ASCII cores of Python's classes
  (`\w` = word chars, `\s` = whitespace, `\d` = digits); all texts appearing
  in the claims are ASCII.  `re.I` is baked into the classes it affects
  (`[0-9a-f]`, `[-a-z_ ]`).
* Python dicts are association lists `List (String × Option (List Char))`
  (`none` models Python `None`); mutation of `match_dict` inside
  `build_ref_url` is modelled by returning the updated dictionary.
* A raised exception (`KeyError` of `str.format` / `REF` lookup, attribute
  error on `None`) is modelled by `Option.none` results.
-/

namespace GitChangelog

/-- Python `str.isspace` / regex whitespace class, ASCII core of `\s`. -/
def isPySpace (c : Char) : Bool :=
  c = ' ' || c = '\t' || c = '\n' || c = '\r' || c = '\x0b' || c = '\x0c'

/-- The class `[\s,]` used by the boundary fragments `RefRe.BB` / `RefRe.BA`. -/
def isBlankBC (c : Char) : Bool := isPySpace c || c = ','

/-- ASCII core of Python's `\w`: letters, digits, underscore. -/
def isWordChar (c : Char) : Bool := c.isAlphanum || c = '_'

/-- The class `[-\w]`. -/
def isWordDash (c : Char) : Bool := c = '-' || isWordChar c

/-- The class `[1-9]`. -/
def isNonzeroDigit (c : Char) : Bool := '1' ≤ c && c ≤ '9'

/-- The class `[0-9a-f]` under `re.I` (the whole patterns are compiled with
`re.I`, so uppercase hex digits match as well). -/
def isHexDigitI (c : Char) : Bool :=
  c.isDigit || ('a' ≤ c && c ≤ 'f') || ('A' ≤ c && c ≤ 'F')

/-- The class `[-a-z_ ]` of `RefRe.ONE_WORD` under `re.I`: hyphen, letters of
either case (because of `re.I`), underscore, and a space. -/
def isOneWordMid (c : Char) : Bool :=
  c = '-' || ('a' ≤ c && c ≤ 'z') || ('A' ≤ c && c ≤ 'Z') || c = '_' || c = ' '

/-- The class `[- \w]` of `RefRe.MULTI_WORD`. -/
def isMultiMid (c : Char) : Bool := c = '-' || c = ' ' || isWordChar c

/-- Lowercase hexadecimal digits (used to state the claims about commit
hashes; a strict subset of `isHexDigitI`). -/
def isLowerHex (c : Char) : Bool := c.isDigit || ('a' ≤ c && c ≤ 'f')

/-- Regular-expression AST covering exactly the constructs used by the
patterns of `providers.py`: literals, single-character classes, sequencing,
ordered alternation, greedy option, greedy bounded repetition of a class,
named groups, `^` and `$`. -/
inductive RE where
  | eps
  | bol
  | eos
  | ch (c : Char)
  | cls (f : Char → Bool)
  | seq (a b : RE)
  | alt (a b : RE)
  | opt (a : RE)
  | rep (f : Char → Bool) (lo : Nat) (hi : Option Nat)
  | grp (n : String) (a : RE)

/-- Captured groups of a match, in capture order. -/
abbrev Caps := List (String × List Char)

/-- Length of the maximal prefix whose characters all satisfy `f`. -/
def leadingCount (f : Char → Bool) : List Char → Nat
  | [] => 0
  | c :: cs => if f c then leadingCount f cs + 1 else 0

/-- The list `[top, top-1, ..., lo]` (empty if `top < lo`): the candidate
consumption counts of a greedy class repetition, most-preferred first. -/
def candDesc (lo top : Nat) : List Nat :=
  (List.range (top + 1 - lo)).map (fun i => top - i)

/-- Backtracking matcher.  `mrun re p s cp` returns, in the `re` module's
backtracking preference order, every way `re` can match a prefix of `s`
(the text starting at absolute position `p`), as
`(end position, remaining text, captured groups)`. -/
def mrun : RE → Nat → List Char → Caps → List (Nat × List Char × Caps)
  | .eps, p, s, cp => [(p, s, cp)]
  | .bol, p, s, cp => if p = 0 then [(p, s, cp)] else []
  | .eos, p, s, cp => if s.isEmpty then [(p, s, cp)] else []
  | .ch c, p, s, cp =>
    match s with
    | [] => []
    | x :: xs => if x = c then [(p + 1, xs, cp)] else []
  | .cls f, p, s, cp =>
    match s with
    | [] => []
    | x :: xs => if f x then [(p + 1, xs, cp)] else []
  | .seq a b, p, s, cp =>
    (mrun a p s cp).flatMap (fun r => mrun b r.1 r.2.1 r.2.2)
  | .alt a b, p, s, cp => mrun a p s cp ++ mrun b p s cp
  | .opt a, p, s, cp => mrun a p s cp ++ [(p, s, cp)]
  | .rep f lo hi, p, s, cp =>
    let r := leadingCount f s
    let top := match hi with
      | some h => min r h
      | none => r
    (candDesc lo top).map (fun k => (p + k, s.drop k, cp))
  | .grp n a, p, s, cp =>
    (mrun a p s cp).map (fun r => (r.1, r.2.1, r.2.2 ++ [(n, s.take (r.1 - p))]))

/-- One scanning pass of `re.finditer`: try to match at each position from
left to right, emit the first (most preferred) match found at the leftmost
matching position, and continue after its end (advancing one character after
an empty match, as Python does).  `fuel` bounds the recursion; `text.length
+ 1` is always enough. -/
def scanF : Nat → RE → Nat → List Char → List (Nat × Nat × Caps)
  | 0, _, _, _ => []
  | fuel + 1, re, p, s =>
    match mrun re p s [] with
    | [] =>
      match s with
      | [] => []
      | _ :: xs => scanF fuel re (p + 1) xs
    | (q, s', cp) :: _ =>
      if q = p then
        (p, q, cp) ::
          (match s with
           | [] => []
           | _ :: xs => scanF fuel re (p + 1) xs)
      else (p, q, cp) :: scanF fuel re q s'

/-- The named groups declared by a pattern, in definition order (as the keys
of Python's `match.groupdict()`). -/
def groupNames : RE → List String
  | .seq a b => groupNames a ++ groupNames b
  | .alt a b => groupNames a ++ groupNames b
  | .opt a => groupNames a
  | .grp n a => n :: groupNames a
  | _ => []

/-- A Python `re.Match`, reduced to what `get_refs` consumes: the span
`[start, stop)` and `groupdict()` (`none` = a declared group that did not
participate in the match, i.e. Python `None`). -/
structure PyMatch where
  start : Nat
  stop : Nat
  gdict : List (String × Option (List Char))
  deriving DecidableEq, Repr

/-- Model of `list(pattern.finditer(text))`, keeping span and groupdict per match. -/
def pyMatches (re : RE) (t : List Char) : List PyMatch :=
  (scanF (t.length + 1) re 0 t).map
    (fun m => ⟨m.1, m.2.1, (groupNames re).map (fun n => (n, List.lookup n m.2.2))⟩)

namespace RefRe

/-- Model of `BB = (?:^|[\s,])` — "blank before".  A consuming group, not a
lookbehind: the boundary character, when present, is part of the match. -/
def BB : RE := .alt .bol (.cls isBlankBC)

/-- Model of `BA = (?:[\s,]|$)` — "blank after". -/
def BA : RE := .alt (.cls isBlankBC) .eos

/-- Model of `NP = (?:(?P<namespace>[-\w]+)/)?(?P<project>[-\w]+)`. -/
def NP : RE :=
  .seq (.opt (.seq (.grp "namespace" (.rep isWordDash 1 none)) (.ch '/')))
    (.grp "project" (.rep isWordDash 1 none))

/-- Model of `NP + "?"` as the source concatenates it: the trailing `?` attaches to
the last group, so it is the *project* group that becomes optional:
`(?:(?P<namespace>[-\w]+)/)?(?P<project>[-\w]+)?`. -/
def NPq : RE :=
  .seq (.opt (.seq (.grp "namespace" (.rep isWordDash 1 none)) (.ch '/')))
    (.opt (.grp "project" (.rep isWordDash 1 none)))

/-- Model of `ID = {symbol}(?P<ref>[1-9]\d*)`. -/
def ID (symbol : Char) : RE :=
  .seq (.ch symbol)
    (.grp "ref" (.seq (.cls isNonzeroDigit) (.rep Char.isDigit 0 none)))

/-- Model of `ONE_WORD = {symbol}(?P<ref>\w*[-a-z_ ][-\w]*)`. -/
def ONE_WORD (symbol : Char) : RE :=
  .seq (.ch symbol)
    (.grp "ref"
      (.seq (.rep isWordChar 0 none)
        (.seq (.cls isOneWordMid) (.rep isWordDash 0 none))))

/-- Model of `MULTI_WORD = {symbol}(?P<ref>"\w[- \w]*")`. -/
def MULTI_WORD (symbol : Char) : RE :=
  .seq (.ch symbol)
    (.grp "ref"
      (.seq (.ch '"')
        (.seq (.cls isWordChar) (.seq (.rep isMultiMid 0 none) (.ch '"')))))

/-- Model of `COMMIT = (?P<ref>[0-9a-f]{min,max})` with `max = 40`. -/
def COMMIT (lo : Nat) : RE := .grp "ref" (.rep isHexDigitI lo (some 40))

/-- Model of `COMMIT_RANGE = (?P<ref>[0-9a-f]{min,max}\.\.\.[0-9a-f]{min,max})`. -/
def COMMIT_RANGE (lo : Nat) : RE :=
  .grp "ref"
    (.seq (.rep isHexDigitI lo (some 40))
      (.seq (.ch '.')
        (.seq (.ch '.') (.seq (.ch '.') (.rep isHexDigitI lo (some 40))))))

/-- Model of `MENTION = @(?P<ref>\w[-\w]*)`. -/
def MENTION : RE :=
  .seq (.ch '@') (.grp "ref" (.seq (.cls isWordChar) (.rep isWordDash 0 none)))

end RefRe

/-- The numeric-id pattern shared by issues / merge_requests / snippets /
labels_ids / milestones_ids: `BB + NP + "?" + ID.format(symbol=...)`. -/
def idKindRE (symbol : Char) : RE := .seq RefRe.BB (.seq RefRe.NPq (RefRe.ID symbol))

/-- Model of `BB + NP + "?" + ONE_WORD.format(symbol=...)`. -/
def oneWordKindRE (symbol : Char) : RE :=
  .seq RefRe.BB (.seq RefRe.NPq (RefRe.ONE_WORD symbol))

/-- Model of `BB + NP + "?" + MULTI_WORD.format(symbol=...)`. -/
def multiWordKindRE (symbol : Char) : RE :=
  .seq RefRe.BB (.seq RefRe.NPq (RefRe.MULTI_WORD symbol))

/-- Model of `BB + (?:{np}@)?{commit}{ba}` with a provider-specific minimum length. -/
def commitsRE (lo : Nat) : RE :=
  .seq RefRe.BB
    (.seq (.opt (.seq RefRe.NP (.ch '@'))) (.seq (RefRe.COMMIT lo) RefRe.BA))

/-- Model of `BB + (?:{np}@)?{commit_range}` (no boundary-after). -/
def commitsRangesRE (lo : Nat) : RE :=
  .seq RefRe.BB
    (.seq (.opt (.seq RefRe.NP (.ch '@'))) (RefRe.COMMIT_RANGE lo))

/-- Model of `BB + MENTION`. -/
def mentionsRE : RE := .seq RefRe.BB RefRe.MENTION

/-- One piece of a URL format string: literal text or a `{name}` placeholder. -/
inductive TItem where
  | lit (s : String)
  | var (k : String)
  deriving DecidableEq, Repr

/-- A URL format string, split at its placeholders. -/
abbrev Template := List TItem

/-- A match dictionary / keyword-argument dictionary: Python `dict` as an
association list.  `none` values model Python `None` (as produced by
`groupdict()` for non-participating groups). -/
abbrev Dict := List (String × Option (List Char))

/-- Model of `template.format(**d)`: substitute every placeholder from `d`.  A missing
key raises `KeyError` (modelled as `none`); a key holding Python `None`
formats as the string `None`. -/
def renderTemplate : Template → Dict → Option (List Char)
  | [], _ => some []
  | .lit s :: rest, d => (renderTemplate rest d).map (fun r => s.toList ++ r)
  | .var k :: rest, d =>
    match List.lookup k d with
    | none => none
    | some none => (renderTemplate rest d).map (fun r => "None".toList ++ r)
    | some (some v) => (renderTemplate rest d).map (fun r => v ++ r)

/-- Model of `"{base_url}/{namespace}/{project}/" + tail + "{ref}"`. -/
def projTailRefTmpl (tail : String) : Template :=
  [.var "base_url", .lit "/", .var "namespace", .lit "/", .var "project",
   .lit tail, .var "ref"]

/-- Model of `GitHub.REF` — kind name, compiled pattern, URL template, in the
declaration (dict insertion) order of the source. -/
def GitHub.REF : List (String × RE × Template) :=
  [("issues", idKindRE '#', projTailRefTmpl "/issues/"),
   ("commits", commitsRE 7, projTailRefTmpl "/commit/"),
   ("commits_ranges", commitsRangesRE 7, projTailRefTmpl "/compare/"),
   ("mentions", mentionsRE, [.var "base_url", .lit "/", .var "ref"])]

/-- Model of `GitLab.REF`, in the declaration order of the source. -/
def GitLab.REF : List (String × RE × Template) :=
  [("issues", idKindRE '#', projTailRefTmpl "/issues/"),
   ("merge_requests", idKindRE '!', projTailRefTmpl "/merge_requests/"),
   ("snippets", idKindRE '$', projTailRefTmpl "/snippets/"),
   ("labels_ids", idKindRE '~', projTailRefTmpl "/issues?label_name[]="),
   ("labels_one_word", oneWordKindRE '~', projTailRefTmpl "/issues?label_name[]="),
   ("labels_multi_word", multiWordKindRE '~', projTailRefTmpl "/issues?label_name[]="),
   ("milestones_ids", idKindRE '%', projTailRefTmpl "/milestones/"),
   ("milestones_one_word", oneWordKindRE '%',
     [.var "base_url", .lit "/", .var "namespace", .lit "/", .var "project",
      .lit "/milestones"]),
   ("milestones_multi_word", multiWordKindRE '%',
     [.var "base_url", .lit "/", .var "namespace", .lit "/", .var "project",
      .lit "/milestones"]),
   ("commits", commitsRE 8, projTailRefTmpl "/commit/"),
   ("commits_ranges", commitsRangesRE 8, projTailRefTmpl "/compare/"),
   ("mentions", mentionsRE, [.var "base_url", .lit "/", .var "ref"])]

/-- Python `key.startswith(pre)`. -/
def pyStartsWith (key pre : String) : Bool := pre.toList.isPrefixOf key.toList

/-- Model of `ProviderRefParser.parse_refs`: an exact kind name runs only that kind's
pattern; otherwise every kind whose name has the selector as a prefix runs,
results concatenated in declaration order; no kind at all gives `[]`. -/
def parseRefs (REF : List (String × RE × Template)) (refType : String)
    (text : List Char) : List PyMatch :=
  match List.lookup refType REF with
  | some e => pyMatches e.1 text
  | none =>
    ((REF.filter (fun e => pyStartsWith e.1 refType)).flatMap
      (fun e => pyMatches e.2.1 text))

/-- Python `str.strip()`: remove leading and trailing whitespace (only
whitespace — a comma is not stripped). -/
def pyStrip (l : List Char) : List Char :=
  ((l.dropWhile isPySpace).reverse.dropWhile isPySpace).reverse

/-- Model of `Ref`: a reference text together with its resolved URL. -/
structure Ref where
  ref : List Char
  url : List Char
  deriving DecidableEq, Repr

/-- Model of `match_dict.get(k)`: `none` for an absent key or a key holding `None`. -/
def dget (d : Dict) (k : String) : Option (List Char) :=
  match List.lookup k d with
  | some v => v
  | none => none

/-- Model of `d[k] = v` on a Python dict: overwrite in place, or append a new key. -/
def dset (d : Dict) (k : String) (v : List Char) : Dict :=
  match d with
  | [] => [(k, some v)]
  | (k', w) :: rest => if k' = k then (k, some v) :: rest else (k', w) :: dset rest k v

/-- Python truthiness of `match_dict.get(k)`: `None` and `""` are falsy. -/
def pyFalsy : Option (List Char) → Bool
  | none => true
  | some s => s.isEmpty

/-- The `ref.replace('"', "").replace(" ", "+")` post-processing applied to
label references: every double quote removed, every space turned into `+`. -/
def labelXform (s : List Char) : List Char :=
  (s.filter (fun c => c ≠ '"')).map (fun c => if c = ' ' then '+' else c)

/-- Model of `ProviderRefParser.build_ref_url`: look the kind up in a `REF` table and
format its URL template with the dictionary. -/
def renderRef (REF : List (String × RE × Template)) (refType : String)
    (d : Dict) : Option (List Char) :=
  match List.lookup refType REF with
  | some e => renderTemplate e.2 d
  | none => none

/-- GitHub provider identity (`namespace` is a Lean keyword, hence `nspace`). -/
structure GitHub where
  nspace : List Char
  project : List Char
  url : List Char
  deriving DecidableEq, Repr

/-- The class attribute `GitHub.url` (default base URL). -/
def GitHub.defaultUrl : List Char := "https://github.com".toList

/-- The in-place update `GitHub.build_ref_url` performs on `match_dict`
before delegating to the base class: set `base_url`, and fill `namespace` /
`project` with the provider defaults when falsy. -/
def GitHub.updateDict (g : GitHub) (d : Dict) : Dict :=
  let d1 := dset d "base_url" g.url
  let d2 := if pyFalsy (dget d1 "namespace") then dset d1 "namespace" g.nspace else d1
  if pyFalsy (dget d2 "project") then dset d2 "project" g.project else d2

/-- Model of `GitHub.build_ref_url` (the URL it returns). -/
def GitHub.build_ref_url (g : GitHub) (refType : String) (d : Dict) :
    Option (List Char) :=
  renderRef GitHub.REF refType (g.updateDict d)

/-- Model of `GitHub.get_refs`. -/
def GitHub.get_refs (g : GitHub) (refType : String) (t : List Char) :
    Option (List Ref) :=
  (parseRefs GitHub.REF refType t).mapM
    (fun m => (g.build_ref_url refType m.gdict).map
      (fun u => ⟨pyStrip ((t.drop m.start).take (m.stop - m.start)), u⟩))

/-- Model of `GitHub.get_compare_url`. -/
def GitHub.get_compare_url (g : GitHub) (base target : List Char) :
    Option (List Char) :=
  g.build_ref_url "commits_ranges" [("ref", some (base ++ "...".toList ++ target))]

/-- GitLab provider identity. -/
structure GitLab where
  nspace : List Char
  project : List Char
  url : List Char
  deriving DecidableEq, Repr

/-- The class attribute `GitLab.url`. -/
def GitLab.defaultUrl : List Char := "https://gitlab.com".toList

/-- The in-place update `GitLab.build_ref_url` performs on `match_dict`:
like GitHub's, plus, for every kind whose name starts with `label`, the
`ref` entry is rewritten with `labelXform`.  Reading `match_dict["ref"]`
when the key is absent or holds `None` raises (modelled as `none`). -/
def GitLab.updateDict (g : GitLab) (refType : String) (d : Dict) : Option Dict :=
  let d1 := dset d "base_url" g.url
  let d2 := if pyFalsy (dget d1 "namespace") then dset d1 "namespace" g.nspace else d1
  let d3 := if pyFalsy (dget d2 "project") then dset d2 "project" g.project else d2
  if pyStartsWith refType "label" then
    match List.lookup "ref" d3 with
    | some (some s) => some (dset d3 "ref" (labelXform s))
    | _ => none
  else some d3

/-- Model of `GitLab.build_ref_url`. -/
def GitLab.build_ref_url (g : GitLab) (refType : String) (d : Dict) :
    Option (List Char) :=
  (g.updateDict refType d).bind (fun d' => renderRef GitLab.REF refType d')

/-- Model of `GitLab.get_refs`. -/
def GitLab.get_refs (g : GitLab) (refType : String) (t : List Char) :
    Option (List Ref) :=
  (parseRefs GitLab.REF refType t).mapM
    (fun m => (g.build_ref_url refType m.gdict).map
      (fun u => ⟨pyStrip ((t.drop m.start).take (m.stop - m.start)), u⟩))

/-- Model of `GitLab.get_compare_url`. -/
def GitLab.get_compare_url (g : GitLab) (base target : List Char) :
    Option (List Char) :=
  g.build_ref_url "commits_ranges" [("ref", some (base ++ "...".toList ++ target))]

/-! ### Generic lemmas about the matcher -/

theorem scanF_zero (re : RE) (p : Nat) (s : List Char) : scanF 0 re p s = [] := rfl

theorem scanF_succ (n : Nat) (re : RE) (p : Nat) (s : List Char) :
    scanF (n + 1) re p s =
      (match mrun re p s [] with
       | [] =>
         match s with
         | [] => []
         | _ :: xs => scanF n re (p + 1) xs
       | (q, s', cp) :: _ =>
         if q = p then
           (p, q, cp) ::
             (match s with
              | [] => []
              | _ :: xs => scanF n re (p + 1) xs)
         else (p, q, cp) :: scanF n re q s') := rfl

theorem lookup_append {α β : Type} [BEq α] (a : α) (l₁ l₂ : List (α × β)) :
    List.lookup a (l₁ ++ l₂) =
      match List.lookup a l₁ with
      | some b => some b
      | none => List.lookup a l₂ := by
  induction l₁ with
  | nil => simp [List.lookup]
  | cons kv rest ih =>
    obtain ⟨k, b⟩ := kv
    simp only [List.cons_append, List.lookup]
    cases a == k <;> simp [ih]

theorem lookup_eq_none_of_keys {α β : Type} [BEq α] [LawfulBEq α] (a : α)
    (l : List (α × β)) (h : ∀ kv ∈ l, kv.1 ≠ a) : List.lookup a l = none := by
  induction l with
  | nil => rfl
  | cons kv rest ih =>
    obtain ⟨k, b⟩ := kv
    have hk : ¬(a == k) = true := by
      intro hb
      exact h (k, b) (List.mem_cons_self _ _) (eq_of_beq hb).symm
    simp only [List.lookup]
    rw [Bool.eq_false_iff.mpr hk]
    exact ih (fun kv hm => h kv (List.mem_cons_of_mem _ hm))

theorem candDesc_mem {lo top k : Nat} : k ∈ candDesc lo top ↔ lo ≤ k ∧ k ≤ top := by
  unfold candDesc
  simp only [List.mem_map, List.mem_range]
  constructor
  · rintro ⟨i, hi, rfl⟩
    omega
  · rintro ⟨h1, h2⟩
    exact ⟨top - k, by omega, by omega⟩

theorem candDesc_eq_nil {lo top : Nat} (h : top < lo) : candDesc lo top = [] := by
  unfold candDesc
  have : top + 1 - lo = 0 := by omega
  rw [this]
  rfl

theorem candDesc_eq_cons {lo top : Nat} (h : lo ≤ top) (h1 : 1 ≤ top) :
    candDesc lo top = top :: candDesc lo (top - 1) := by
  unfold candDesc
  have hc : top + 1 - lo = (top - lo) + 1 := by omega
  have hc' : top - 1 + 1 - lo = top - lo := by omega
  rw [hc, hc', List.range_succ_eq_map, List.map_cons, List.map_map]
  refine congrArg (fun l => (top - 0) :: l) ?_
  apply List.map_congr_left
  intro i _
  simp only [Function.comp_apply]
  omega

theorem leadingCount_of_all {f : Char → Bool} {s : List Char}
    (h : ∀ c ∈ s, f c = true) : leadingCount f s = s.length := by
  induction s with
  | nil => rfl
  | cons c cs ih =>
    simp only [leadingCount, h c (List.mem_cons_self _ _), if_true, List.length_cons]
    rw [ih (fun x hx => h x (List.mem_cons_of_mem _ hx))]

theorem mrun_mem_spec : ∀ (re : RE) (p : Nat) (s : List Char) (cp : Caps)
    (r : Nat × List Char × Caps), r ∈ mrun re p s cp →
    p ≤ r.1 ∧ r.2.1 = s.drop (r.1 - p) := by
  intro re
  induction re with
  | eps =>
    intro p s cp r hr
    simp only [mrun, List.mem_singleton] at hr
    subst hr
    simp
  | bol =>
    intro p s cp r hr
    simp only [mrun] at hr
    split at hr <;> simp only [List.mem_singleton, List.not_mem_nil] at hr
    subst hr
    simp
  | eos =>
    intro p s cp r hr
    simp only [mrun] at hr
    split at hr <;> simp only [List.mem_singleton, List.not_mem_nil] at hr
    subst hr
    simp
  | ch c =>
    intro p s cp r hr
    match s, hr with
    | [], hr => simp [mrun] at hr
    | x :: xs, hr =>
      simp only [mrun] at hr
      split at hr <;> simp only [List.mem_singleton, List.not_mem_nil] at hr
      subst hr
      simp
  | cls f =>
    intro p s cp r hr
    match s, hr with
    | [], hr => simp [mrun] at hr
    | x :: xs, hr =>
      simp only [mrun] at hr
      split at hr <;> simp only [List.mem_singleton, List.not_mem_nil] at hr
      subst hr
      simp
  | seq a b iha ihb =>
    intro p s cp r hr
    simp only [mrun, List.mem_flatMap] at hr
    obtain ⟨r1, h1, h2⟩ := hr
    obtain ⟨hp1, hs1⟩ := iha p s cp r1 h1
    obtain ⟨hp2, hs2⟩ := ihb r1.1 r1.2.1 r1.2.2 r h2
    constructor
    · omega
    · rw [hs2, hs1, List.drop_drop]
      congr 1
      omega
  | alt a b iha ihb =>
    intro p s cp r hr
    simp only [mrun, List.mem_append] at hr
    rcases hr with hr | hr
    · exact iha p s cp r hr
    · exact ihb p s cp r hr
  | opt a iha =>
    intro p s cp r hr
    simp only [mrun, List.mem_append, List.mem_singleton] at hr
    rcases hr with hr | hr
    · exact iha p s cp r hr
    · subst hr
      simp
  | rep f lo hi =>
    intro p s cp r hr
    simp only [mrun, List.mem_map] at hr
    obtain ⟨k, hk, rfl⟩ := hr
    constructor
    · omega
    · simp only []
      congr 1
      omega
  | grp n a iha =>
    intro p s cp r hr
    simp only [mrun, List.mem_map] at hr
    obtain ⟨r1, h1, rfl⟩ := hr
    exact iha p s cp r1 h1

theorem mrun_mem_caps : ∀ (re : RE) (p : Nat) (s : List Char) (cp : Caps)
    (r : Nat × List Char × Caps), r ∈ mrun re p s cp →
    ∃ ext, r.2.2 = cp ++ ext ∧ ∀ kv ∈ ext, kv.1 ∈ groupNames re := by
  intro re
  induction re with
  | eps =>
    intro p s cp r hr
    simp only [mrun, List.mem_singleton] at hr
    subst hr
    exact ⟨[], by simp, by simp⟩
  | bol =>
    intro p s cp r hr
    simp only [mrun] at hr
    split at hr <;> simp only [List.mem_singleton, List.not_mem_nil] at hr
    subst hr
    exact ⟨[], by simp, by simp⟩
  | eos =>
    intro p s cp r hr
    simp only [mrun] at hr
    split at hr <;> simp only [List.mem_singleton, List.not_mem_nil] at hr
    subst hr
    exact ⟨[], by simp, by simp⟩
  | ch c =>
    intro p s cp r hr
    match s, hr with
    | [], hr => simp [mrun] at hr
    | x :: xs, hr =>
      simp only [mrun] at hr
      split at hr <;> simp only [List.mem_singleton, List.not_mem_nil] at hr
      subst hr
      exact ⟨[], by simp, by simp⟩
  | cls f =>
    intro p s cp r hr
    match s, hr with
    | [], hr => simp [mrun] at hr
    | x :: xs, hr =>
      simp only [mrun] at hr
      split at hr <;> simp only [List.mem_singleton, List.not_mem_nil] at hr
      subst hr
      exact ⟨[], by simp, by simp⟩
  | seq a b iha ihb =>
    intro p s cp r hr
    simp only [mrun, List.mem_flatMap] at hr
    obtain ⟨r1, h1, h2⟩ := hr
    obtain ⟨e1, he1, hn1⟩ := iha p s cp r1 h1
    obtain ⟨e2, he2, hn2⟩ := ihb r1.1 r1.2.1 r1.2.2 r h2
    refine ⟨e1 ++ e2, ?_, ?_⟩
    · rw [he2, he1, List.append_assoc]
    · intro kv hm
      rcases List.mem_append.mp hm with hm | hm
      · exact List.mem_append.mpr (Or.inl (hn1 kv hm))
      · exact List.mem_append.mpr (Or.inr (hn2 kv hm))
  | alt a b iha ihb =>
    intro p s cp r hr
    simp only [mrun, List.mem_append] at hr
    rcases hr with hr | hr
    · obtain ⟨e, he, hn⟩ := iha p s cp r hr
      exact ⟨e, he, fun kv hm => List.mem_append.mpr (Or.inl (hn kv hm))⟩
    · obtain ⟨e, he, hn⟩ := ihb p s cp r hr
      exact ⟨e, he, fun kv hm => List.mem_append.mpr (Or.inr (hn kv hm))⟩
  | opt a iha =>
    intro p s cp r hr
    simp only [mrun, List.mem_append, List.mem_singleton] at hr
    rcases hr with hr | hr
    · exact iha p s cp r hr
    · subst hr
      exact ⟨[], by simp, by simp⟩
  | rep f lo hi =>
    intro p s cp r hr
    simp only [mrun, List.mem_map] at hr
    obtain ⟨k, hk, rfl⟩ := hr
    exact ⟨[], by simp, by simp⟩
  | grp n a iha =>
    intro p s cp r hr
    simp only [mrun, List.mem_map] at hr
    obtain ⟨r1, h1, rfl⟩ := hr
    obtain ⟨e, he, hn⟩ := iha p s cp r1 h1
    refine ⟨e ++ [(n, s.take (r1.1 - p))], ?_, ?_⟩
    · simp only [he, List.append_assoc]
    · intro kv hm
      rcases List.mem_append.mp hm with hm | hm
      · exact List.mem_cons_of_mem _ (hn kv hm)
      · simp only [List.mem_singleton] at hm
        subst hm
        exact List.mem_cons_self _ _

theorem scanF_mem : ∀ (fuel : Nat) (re : RE) (p : Nat) (s : List Char)
    (m : Nat × Nat × Caps), m ∈ scanF fuel re p s →
    ∃ q r rest, p ≤ q ∧ mrun re q (s.drop (q - p)) [] = r :: rest ∧
      m = (q, r.1, r.2.2) := by
  intro fuel
  induction fuel with
  | zero =>
    intro re p s m hm
    simp [scanF] at hm
  | succ n ih =>
    intro re p s m hm
    rw [scanF_succ] at hm
    cases hmr : mrun re p s [] with
    | nil =>
      rw [hmr] at hm
      match s, hm with
      | [], hm => simp at hm
      | c :: xs, hm =>
        obtain ⟨q, r, rest, hq, hrun, hme⟩ := ih re (p + 1) xs m hm
        refine ⟨q, r, rest, by omega, ?_, hme⟩
        have : (c :: xs).drop (q - p) = xs.drop (q - (p + 1)) := by
          have hq' : q - p = (q - (p + 1)) + 1 := by omega
          rw [hq']
          rfl
        rw [this]
        exact hrun
    | cons r0 rest0 =>
      obtain ⟨q0, s0, cp0⟩ := r0
      rw [hmr] at hm
      have hhead : (q0, s0, cp0) ∈ mrun re p s [] := by
        rw [hmr]
        exact List.mem_cons_self _ _
      obtain ⟨hple, hdrop⟩ := mrun_mem_spec re p s [] (q0, s0, cp0) hhead
      simp only at hple hdrop
      dsimp only at hm
      by_cases hq0 : q0 = p
      · rw [if_pos hq0] at hm
        rcases List.mem_cons.mp hm with hm | hm
        · refine ⟨p, (q0, s0, cp0), rest0, le_refl p, ?_, ?_⟩
          · simpa using hmr
          · rw [hm]
        · match s, hm with
          | [], hm => simp at hm
          | c :: xs, hm =>
            obtain ⟨q, r, rest, hq, hrun, hme⟩ := ih re (p + 1) xs m hm
            refine ⟨q, r, rest, by omega, ?_, hme⟩
            have : (c :: xs).drop (q - p) = xs.drop (q - (p + 1)) := by
              have hq' : q - p = (q - (p + 1)) + 1 := by omega
              rw [hq']
              rfl
            rw [this]
            exact hrun
      · rw [if_neg hq0] at hm
        rcases List.mem_cons.mp hm with hm | hm
        · refine ⟨p, (q0, s0, cp0), rest0, le_refl p, ?_, ?_⟩
          · simpa using hmr
          · rw [hm]
        · obtain ⟨q, r, rest, hq, hrun, hme⟩ := ih re q0 s0 m hm
          refine ⟨q, r, rest, by omega, ?_, hme⟩
          rw [hdrop, List.drop_drop] at hrun
          have : q0 - p + (q - q0) = q - p := by omega
          rw [this] at hrun
          exact hrun

theorem scanF_eq_nil : ∀ (fuel : Nat) (re : RE) (p : Nat) (s : List Char),
    (∀ i, mrun re (p + i) (s.drop i) [] = []) → scanF fuel re p s = [] := by
  intro fuel
  induction fuel with
  | zero =>
    intro re p s _
    rfl
  | succ n ih =>
    intro re p s h
    rw [scanF_succ]
    have h0 := h 0
    simp only [Nat.add_zero, List.drop_zero] at h0
    rw [h0]
    match s with
    | [] => rfl
    | c :: xs =>
      apply ih
      intro i
      have hi := h (i + 1)
      have : p + (i + 1) = p + 1 + i := by omega
      rw [this] at hi
      exact hi

/-! ### Character-class facts -/

theorem lower_range_isLower {c : Char} (h1 : 'a' ≤ c) (h2 : c ≤ 'f') :
    c.isLower = true := by
  simp only [Char.le_def] at h1 h2
  simp only [Char.isLower, Bool.and_eq_true, decide_eq_true_eq, ge_iff_le]
  exact ⟨UInt32.le_trans (by decide) h1, UInt32.le_trans h2 (by decide)⟩

theorem lhex_hexI {c : Char} (h : isLowerHex c = true) : isHexDigitI c = true := by
  simp only [isLowerHex, Bool.or_eq_true] at h
  simp only [isHexDigitI, Bool.or_eq_true]
  tauto

theorem lhex_wordDash {c : Char} (h : isLowerHex c = true) : isWordDash c = true := by
  simp only [isLowerHex, Bool.or_eq_true, Bool.and_eq_true, decide_eq_true_eq] at h
  simp only [isWordDash, isWordChar, Char.isAlphanum, Char.isAlpha, Bool.or_eq_true]
  rcases h with h | ⟨h1, h2⟩
  · tauto
  · exact Or.inr (Or.inl (Or.inl (Or.inr (lower_range_isLower h1 h2))))

theorem lhex_not_blank {c : Char} (h : isLowerHex c = true) : isBlankBC c = false := by
  by_contra hb
  rw [Bool.not_eq_false] at hb
  simp only [isBlankBC, isPySpace, Bool.or_eq_true, decide_eq_true_eq] at hb
  rcases hb with ((((((e | e) | e) | e) | e) | e) | e) <;> (subst e; revert h; decide)

theorem lhex_ne_slash {c : Char} (h : isLowerHex c = true) : c ≠ '/' := by
  intro e
  subst e
  revert h
  decide

theorem lhex_ne_at {c : Char} (h : isLowerHex c = true) : c ≠ '@' := by
  intro e
  subst e
  revert h
  decide

theorem mid_not_digit {c : Char} (h : isOneWordMid c = true) : c.isDigit = false := by
  simp only [isOneWordMid, Bool.or_eq_true, Bool.and_eq_true, decide_eq_true_eq] at h
  by_contra hd
  rw [Bool.not_eq_false] at hd
  simp only [Char.isDigit, Bool.and_eq_true, decide_eq_true_eq, ge_iff_le] at hd
  obtain ⟨hd1, hd2⟩ := hd
  rcases h with ((((e | ⟨h1, _⟩) | ⟨h1, _⟩) | e) | e)
  · subst e; revert hd1 hd2; decide
  · simp only [Char.le_def] at h1
    have : (97 : UInt32) ≤ 57 := UInt32.le_trans (UInt32.le_trans (by decide) h1) hd2
    revert this
    decide
  · simp only [Char.le_def] at h1
    have : (65 : UInt32) ≤ 57 := UInt32.le_trans (UInt32.le_trans (by decide) h1) hd2
    revert this
    decide
  · subst e; revert hd1 hd2; decide
  · subst e; revert hd1 hd2; decide

/-! ### Dictionary lemmas -/

theorem dset_lookup_self (d : Dict) (k : String) (v : List Char) :
    List.lookup k (dset d k v) = some (some v) := by
  induction d with
  | nil => simp [dset, List.lookup]
  | cons kv rest ih =>
    obtain ⟨k', w⟩ := kv
    by_cases h : k' = k
    · subst h
      simp [dset, List.lookup]
    · simp only [dset, if_neg h, List.lookup]
      rw [beq_false_of_ne (fun e => h e.symm)]
      exact ih

theorem dset_lookup_ne (d : Dict) (k k' : String) (v : List Char) (h : k' ≠ k) :
    List.lookup k' (dset d k v) = List.lookup k' d := by
  induction d with
  | nil =>
    simp only [dset, List.lookup]
    rw [beq_false_of_ne h]
  | cons kv rest ih =>
    obtain ⟨k0, w⟩ := kv
    by_cases h0 : k0 = k
    · subst h0
      simp only [dset, if_pos rfl, List.lookup]
      rw [beq_false_of_ne h]
    · simp only [dset, if_neg h0, List.lookup]
      cases k' == k0 <;> simp [ih]

theorem dget_dset_ne (d : Dict) (k k' : String) (v : List Char) (h : k' ≠ k) :
    dget (dset d k v) k' = dget d k' := by
  simp only [dget, dset_lookup_ne d k k' v h]

/-- Characterization of the dictionary after `GitHub.build_ref_url`'s
in-place update. -/
theorem github_update_spec (g : GitHub) (d : Dict) :
    List.lookup "base_url" (g.updateDict d) = some (some g.url) ∧
    List.lookup "namespace" (g.updateDict d) =
      (if pyFalsy (dget d "namespace") then some (some g.nspace)
       else List.lookup "namespace" d) ∧
    List.lookup "project" (g.updateDict d) =
      (if pyFalsy (dget d "project") then some (some g.project)
       else List.lookup "project" d) ∧
    List.lookup "ref" (g.updateDict d) = List.lookup "ref" d := by
  have e1 : dget (dset d "base_url" g.url) "namespace" = dget d "namespace" :=
    dget_dset_ne _ _ _ _ (by decide)
  by_cases hns : pyFalsy (dget d "namespace") = true <;>
    by_cases hpj : pyFalsy (dget d "project") = true
  · have hupd : g.updateDict d =
        dset (dset (dset d "base_url" g.url) "namespace" g.nspace) "project" g.project := by
      simp only [GitHub.updateDict, e1, if_pos hns]
      rw [dget_dset_ne _ _ _ _ (by decide), dget_dset_ne _ _ _ _ (by decide), if_pos hpj]
    rw [hupd]
    refine ⟨?_, ?_, ?_, ?_⟩
    · rw [dset_lookup_ne _ _ _ _ (by decide), dset_lookup_ne _ _ _ _ (by decide),
        dset_lookup_self]
    · rw [dset_lookup_ne _ _ _ _ (by decide), dset_lookup_self, if_pos hns]
    · rw [dset_lookup_self, if_pos hpj]
    · rw [dset_lookup_ne _ _ _ _ (by decide), dset_lookup_ne _ _ _ _ (by decide),
        dset_lookup_ne _ _ _ _ (by decide)]
  · have hupd : g.updateDict d =
        dset (dset d "base_url" g.url) "namespace" g.nspace := by
      simp only [GitHub.updateDict, e1, if_pos hns]
      rw [dget_dset_ne _ _ _ _ (by decide), dget_dset_ne _ _ _ _ (by decide), if_neg hpj]
    rw [hupd]
    refine ⟨?_, ?_, ?_, ?_⟩
    · rw [dset_lookup_ne _ _ _ _ (by decide), dset_lookup_self]
    · rw [dset_lookup_self, if_pos hns]
    · rw [dset_lookup_ne _ _ _ _ (by decide), dset_lookup_ne _ _ _ _ (by decide),
        if_neg hpj]
    · rw [dset_lookup_ne _ _ _ _ (by decide), dset_lookup_ne _ _ _ _ (by decide)]
  · have hupd : g.updateDict d =
        dset (dset d "base_url" g.url) "project" g.project := by
      simp only [GitHub.updateDict, e1, if_neg hns]
      rw [dget_dset_ne _ _ _ _ (by decide), if_pos hpj]
    rw [hupd]
    refine ⟨?_, ?_, ?_, ?_⟩
    · rw [dset_lookup_ne _ _ _ _ (by decide), dset_lookup_self]
    · rw [dset_lookup_ne _ _ _ _ (by decide), dset_lookup_ne _ _ _ _ (by decide),
        if_neg hns]
    · rw [dset_lookup_self, if_pos hpj]
    · rw [dset_lookup_ne _ _ _ _ (by decide), dset_lookup_ne _ _ _ _ (by decide)]
  · have hupd : g.updateDict d = dset d "base_url" g.url := by
      simp only [GitHub.updateDict, e1, if_neg hns]
      rw [dget_dset_ne _ _ _ _ (by decide), if_neg hpj]
    rw [hupd]
    refine ⟨?_, ?_, ?_, ?_⟩
    · rw [dset_lookup_self]
    · rw [dset_lookup_ne _ _ _ _ (by decide), if_neg hns]
    · rw [dset_lookup_ne _ _ _ _ (by decide), if_neg hpj]
    · rw [dset_lookup_ne _ _ _ _ (by decide)]

/-- The defaulting part of `GitLab.build_ref_url` is the same code as
GitHub's; only the label post-processing is added. -/
theorem gitlab_update_eq (gl : GitLab) (rt : String) (d : Dict) :
    gl.updateDict rt d =
      (if pyStartsWith rt "label" then
        match List.lookup "ref" (GitHub.updateDict ⟨gl.nspace, gl.project, gl.url⟩ d) with
        | some (some s) =>
          some (dset (GitHub.updateDict ⟨gl.nspace, gl.project, gl.url⟩ d) "ref" (labelXform s))
        | _ => none
      else some (GitHub.updateDict ⟨gl.nspace, gl.project, gl.url⟩ d)) := rfl

/-! ### Claims -/

/-- C7: for every provider and all tag strings `base` and `target`,
`compare_url(base, target)` returns exactly the URL obtained by resolving the
commits_ranges kind's URL template with captured ref `base ++ "..." ++
target` and the provider's own base URL, namespace and project filled in. -/
theorem C7_compare_url_equals_commits_ranges_resolution :
    ∀ (ns proj url base target : List Char),
      (GitHub.get_compare_url ⟨ns, proj, url⟩ base target =
        renderTemplate (projTailRefTmpl "/compare/")
          [("base_url", some url), ("namespace", some ns), ("project", some proj),
           ("ref", some (base ++ "...".toList ++ target))]) ∧
      (GitLab.get_compare_url ⟨ns, proj, url⟩ base target =
        renderTemplate (projTailRefTmpl "/compare/")
          [("base_url", some url), ("namespace", some ns), ("project", some proj),
           ("ref", some (base ++ "...".toList ++ target))]) := by
  intro ns proj url base target
  exact ⟨rfl, rfl⟩

/-- C10: `build_ref_url` updates the match dictionary in place (modelled here
by `updateDict` returning the updated dictionary): afterwards `base_url` maps
to the provider URL; `namespace` and `project` are overwritten with the
provider defaults exactly when they were absent, `None` or empty; for GitLab
kinds starting with `label` the `ref` entry is rewritten by `labelXform`; and
the dictionary (which never holds a `base_url` key when it comes from
`groupdict()`) does not stay unchanged. -/
theorem C10_build_ref_url_mutates_match_dict :
    (∀ (g : GitHub) (d : Dict),
       List.lookup "base_url" (g.updateDict d) = some (some g.url) ∧
       (pyFalsy (dget d "namespace") = true →
         List.lookup "namespace" (g.updateDict d) = some (some g.nspace)) ∧
       (pyFalsy (dget d "namespace") = false →
         List.lookup "namespace" (g.updateDict d) = List.lookup "namespace" d) ∧
       (pyFalsy (dget d "project") = true →
         List.lookup "project" (g.updateDict d) = some (some g.project)) ∧
       (pyFalsy (dget d "project") = false →
         List.lookup "project" (g.updateDict d) = List.lookup "project" d) ∧
       (List.lookup "base_url" d = none → g.updateDict d ≠ d)) ∧
    (∀ (gl : GitLab) (rt : String) (d : Dict) (s : List Char),
       pyStartsWith rt "label" = true → List.lookup "ref" d = some (some s) →
       ∃ d', gl.updateDict rt d = some d' ∧
         List.lookup "ref" d' = some (some (labelXform s)) ∧
         List.lookup "base_url" d' = some (some gl.url)) ∧
    (∀ (gl : GitLab) (rt : String) (d : Dict),
       pyStartsWith rt "label" = false →
       ∃ d', gl.updateDict rt d = some d' ∧
         List.lookup "base_url" d' = some (some gl.url) ∧
         (List.lookup "base_url" d = none → d' ≠ d)) := by
  refine ⟨?_, ?_, ?_⟩
  · intro g d
    obtain ⟨hb, hn, hp, _⟩ := github_update_spec g d
    refine ⟨hb, ?_, ?_, ?_, ?_, ?_⟩
    · intro h
      rw [hn, if_pos h]
    · intro h
      rw [hn, if_neg (by simp [h])]
    · intro h
      rw [hp, if_pos h]
    · intro h
      rw [hp, if_neg (by simp [h])]
    · intro h0 heq
      have hx := congrArg (List.lookup "base_url") heq
      rw [hb, h0] at hx
      cases hx
  · intro gl rt d s hlab href
    have hspec := github_update_spec ⟨gl.nspace, gl.project, gl.url⟩ d
    obtain ⟨hb, _, _, hr⟩ := hspec
    refine ⟨dset (GitHub.updateDict ⟨gl.nspace, gl.project, gl.url⟩ d) "ref" (labelXform s),
      ?_, ?_, ?_⟩
    · rw [gitlab_update_eq, if_pos hlab, hr, href]
    · rw [dset_lookup_self]
    · rw [dset_lookup_ne _ _ _ _ (by decide), hb]
  · intro gl rt d hlab
    have hspec := github_update_spec ⟨gl.nspace, gl.project, gl.url⟩ d
    obtain ⟨hb, _, _, _⟩ := hspec
    refine ⟨GitHub.updateDict ⟨gl.nspace, gl.project, gl.url⟩ d, ?_, hb, ?_⟩
    · rw [gitlab_update_eq, if_neg (by simp [hlab])]
    · intro h0 heq
      have hx := congrArg (List.lookup "base_url") heq
      rw [hb, h0] at hx
      cases hx

/-- C1: kind-selector resolution of `parse_refs` (the lookup step of
`find_references`): an exact registered kind name runs only that kind's
pattern (`"commits"` runs only the commits pattern even though it is also a
prefix of `"commits_ranges"`); a proper prefix such as `"labels"` on GitLab
runs all matching kinds concatenated in the grammar's declared order; a
selector matching nothing yields `[]` and no error. -/
theorem C1_kind_selector_resolution :
    (∀ t : List Char,
       parseRefs GitLab.REF "labels" t =
         pyMatches (idKindRE '~') t ++ pyMatches (oneWordKindRE '~') t ++
           pyMatches (multiWordKindRE '~') t) ∧
    (∀ t : List Char, parseRefs GitLab.REF "commits" t = pyMatches (commitsRE 8) t) ∧
    (∀ t : List Char, parseRefs GitHub.REF "commits" t = pyMatches (commitsRE 7) t) ∧
    (∀ (REF : List (String × RE × Template)) (rt : String) (t : List Char),
       List.lookup rt REF = none → (∀ e ∈ REF, pyStartsWith e.1 rt = false) →
       parseRefs REF rt t = []) := by
  refine ⟨?_, ?_, ?_, ?_⟩
  · intro t
    have h : parseRefs GitLab.REF "labels" t =
        pyMatches (idKindRE '~') t ++ (pyMatches (oneWordKindRE '~') t ++
          (pyMatches (multiWordKindRE '~') t ++ [])) := rfl
    rw [h, List.append_nil, List.append_assoc]
  · intro t
    rfl
  · intro t
    rfl
  · intro REF rt t h1 h2
    simp only [parseRefs, h1]
    have hf : REF.filter (fun e => pyStartsWith e.1 rt) = [] :=
      List.filter_eq_nil_iff.mpr (fun e he => by simp [h2 e he])
    rw [hf]
    rfl

/-- Witness for the hypothesis-bearing conjunct of C1: the selector `"pulls"`
matches no GitHub kind, exactly or by prefix, and yields the empty list. -/
theorem C1_kind_selector_resolution_witness :
    parseRefs GitHub.REF "pulls" ("see #42".toList) = [] :=
  C1_kind_selector_resolution.2.2.2 GitHub.REF "pulls" ("see #42".toList)
    rfl (by decide)

theorem head?_dropWhile_not {α : Type} {p : α → Bool} :
    ∀ (l : List α) (c : α), ((l.dropWhile p).head? = some c) → p c = false := by
  intro l
  induction l with
  | nil =>
    intro c h
    simp [List.dropWhile] at h
  | cons x xs ih =>
    intro c h
    rw [List.dropWhile_cons] at h
    by_cases hp : p x = true
    · rw [if_pos hp] at h
      exact ih c h
    · rw [if_neg hp] at h
      simp only [List.head?_cons, Option.some.injEq] at h
      subst h
      exact Bool.eq_false_iff.mpr hp

theorem getLast?_of_dropWhile {α : Type} {p : α → Bool} {l : List α} {c : α}
    (h : ((l.dropWhile p).getLast? = some c)) : l.getLast? = some c := by
  obtain ⟨t, ht⟩ := List.dropWhile_suffix (l := l) p
  rw [← ht, List.getLast?_append, h]
  rfl

/-- The first character of a stripped string is never whitespace. -/
theorem pyStrip_head_not_space {l : List Char} {c : Char}
    (h : (pyStrip l).head? = some c) : isPySpace c = false := by
  unfold pyStrip at h
  rw [List.head?_reverse] at h
  have h2 := getLast?_of_dropWhile h
  rw [List.getLast?_reverse] at h2
  exact head?_dropWhile_not _ _ h2

/-- The last character of a stripped string is never whitespace. -/
theorem pyStrip_getLast_not_space {l : List Char} {c : Char}
    (h : (pyStrip l).getLast? = some c) : isPySpace c = false := by
  unfold pyStrip at h
  rw [List.getLast?_reverse] at h
  exact head?_dropWhile_not _ _ h

theorem mapM_option_mem {α β : Type} (f : α → Option β) :
    ∀ (l : List α) (rs : List β), List.mapM f l = some rs →
      ∀ r ∈ rs, ∃ a ∈ l, f a = some r := by
  intro l
  induction l with
  | nil =>
    intro rs h r hr
    simp only [List.mapM_nil, pure, Option.some.injEq] at h
    subst h
    simp at hr
  | cons a l ih =>
    intro rs h r hr
    rw [List.mapM_cons] at h
    cases hfa : f a with
    | none =>
      rw [hfa] at h
      simp at h
    | some b =>
      rw [hfa] at h
      cases hml : List.mapM f l with
      | none =>
        rw [hml] at h
        simp at h
      | some bs =>
        rw [hml] at h
        simp only [Option.bind_some, Option.pure_def, Option.bind_eq_bind,
          Option.some_bind, Option.some.injEq] at h
        subst h
        rcases List.mem_cons.mp hr with hr | hr
        · exact ⟨a, List.mem_cons_self _ _, by rw [hfa, hr]⟩
        · obtain ⟨a', ha', hfa'⟩ := ih bs hml r hr
          exact ⟨a', List.mem_cons_of_mem _ ha', hfa'⟩

/-- Any result of a pattern that begins with the `BB` fragment is at
position 0 or starts at a whitespace/comma character. -/
theorem mem_mrun_BB_seq {tail : RE} {q : Nat} {sq : List Char} {cp : Caps}
    {r : Nat × List Char × Caps} (hr : r ∈ mrun (.seq RefRe.BB tail) q sq cp) :
    q = 0 ∨ ∃ c cs, sq = c :: cs ∧ isBlankBC c = true := by
  have hq : r ∈ (mrun RefRe.BB q sq cp).flatMap (fun r => mrun tail r.1 r.2.1 r.2.2) := hr
  obtain ⟨r1, h1, _⟩ := List.mem_flatMap.mp hq
  have h2 : r1 ∈ mrun .bol q sq cp ++ mrun (.cls isBlankBC) q sq cp := h1
  rcases List.mem_append.mp h2 with h3 | h3
  · by_cases hq0 : q = 0
    · exact Or.inl hq0
    · rw [show mrun .bol q sq cp = if q = 0 then [(q, sq, cp)] else [] from rfl,
        if_neg hq0] at h3
      simp at h3
  · match sq, h3 with
    | [], h3 => simp [mrun] at h3
    | c :: cs, h3 =>
      by_cases hc : isBlankBC c = true
      · exact Or.inr ⟨c, cs, rfl, hc⟩
      · rw [show mrun (.cls isBlankBC) q (c :: cs) cp =
            (if isBlankBC c then [(q + 1, cs, cp)] else []) from rfl, if_neg hc] at h3
        simp at h3

/-- Every match of a `BB`-headed pattern starts at position 0 or at a
boundary character of the text (which the match consumes). -/
theorem pyMatches_BB_start {tail : RE} {t : List Char} {m : PyMatch}
    (hm : m ∈ pyMatches (.seq RefRe.BB tail) t) :
    m.start = 0 ∨ ∃ c cs, t.drop m.start = c :: cs ∧ isBlankBC c = true := by
  unfold pyMatches at hm
  obtain ⟨raw, hraw, hmap⟩ := List.mem_map.mp hm
  obtain ⟨q, r, rest, _, hrun, hme⟩ := scanF_mem _ _ _ _ raw hraw
  have hhead : r ∈ mrun (.seq RefRe.BB tail) q (t.drop (q - 0)) [] := by
    rw [hrun]
    exact List.mem_cons_self _ _
  have hstart : m.start = q := by
    rw [← hmap, hme]
  rcases mem_mrun_BB_seq hhead with h | h
  · exact Or.inl (by rw [hstart, h])
  · right
    rw [hstart]
    simpa using h

/-- C2: on GitHub with namespace `N`, project `P`, base URL `U`, requesting
kind `issues` on `"see #42 and owner/other#7"` returns exactly two references
in text order; the first URL uses the provider defaults `N`/`P`, the second
uses `owner`/`other` from the match; the base URL is `U` in both. -/
theorem C2_github_issue_defaulting_and_override :
    ∀ N P U : List Char,
      GitHub.get_refs ⟨N, P, U⟩ "issues" ("see #42 and owner/other#7".toList) =
        some [⟨"#42".toList,
               U ++ ("/".toList ++ (N ++ ("/".toList ++ (P ++ "/issues/42".toList))))⟩,
              ⟨"owner/other#7".toList, U ++ "/owner/other/issues/7".toList⟩] := by
  intro N P U
  rfl

/-- C4 counterexample: the claim says `"abc#1"` yields no issues match, but
on both providers it yields exactly one match — the optional
namespace/project fragment captures `abc` as the project, so the glued word
does not prevent the match. -/
theorem C4_counterexample_glued_symbol :
    parseRefs GitHub.REF "issues" ("abc#1".toList) =
      [⟨0, 5, [("namespace", none), ("project", some ("abc".toList)),
               ("ref", some ("1".toList))]⟩] ∧
    parseRefs GitLab.REF "issues" ("abc#1".toList) =
      [⟨0, 5, [("namespace", none), ("project", some ("abc".toList)),
               ("ref", some ("1".toList))]⟩] ∧
    parseRefs GitHub.REF "issues" ("abc#1".toList) ≠ [] := by
  refine ⟨by decide, by decide, by decide⟩

/-- C4 amended: a numeric-id symbol glued to a preceding word is matched with
that word captured as the project (`"abc#1"` matches with project `abc`, ref
`1`); glued to a character that can be part of neither boundary nor project
(`"a.b#1"`) there is no match; `" #1"`, `",#1"` and `"#1"` at text start all
match with ref `1`; `"@alice"` matches mentions with ref `alice` while
`"email@alice"` yields no mentions match — on both providers. -/
theorem C4_boundary_and_glued_matches :
    parseRefs GitHub.REF "issues" ("abc#1".toList) =
      [⟨0, 5, [("namespace", none), ("project", some ("abc".toList)),
               ("ref", some ("1".toList))]⟩] ∧
    parseRefs GitLab.REF "issues" ("abc#1".toList) =
      [⟨0, 5, [("namespace", none), ("project", some ("abc".toList)),
               ("ref", some ("1".toList))]⟩] ∧
    parseRefs GitHub.REF "issues" ("a.b#1".toList) = [] ∧
    parseRefs GitHub.REF "issues" (" #1".toList) =
      [⟨0, 3, [("namespace", none), ("project", none), ("ref", some ("1".toList))]⟩] ∧
    parseRefs GitHub.REF "issues" (",#1".toList) =
      [⟨0, 3, [("namespace", none), ("project", none), ("ref", some ("1".toList))]⟩] ∧
    parseRefs GitHub.REF "issues" ("#1".toList) =
      [⟨0, 2, [("namespace", none), ("project", none), ("ref", some ("1".toList))]⟩] ∧
    parseRefs GitHub.REF "mentions" ("@alice".toList) =
      [⟨0, 6, [("ref", some ("alice".toList))]⟩] ∧
    parseRefs GitLab.REF "mentions" ("@alice".toList) =
      [⟨0, 6, [("ref", some ("alice".toList))]⟩] ∧
    parseRefs GitHub.REF "mentions" ("email@alice".toList) = [] ∧
    parseRefs GitLab.REF "mentions" ("email@alice".toList) = [] := by
  refine ⟨by decide, by decide, by decide, by decide, by decide, by decide, by decide,
    by decide, by decide, by decide⟩

/-- C6: `~"needs review"` is matched by GitLab's labels_multi_word kind and
resolves to a URL whose label_name value is exactly `needs+review` (quotes
removed, interior space turned into `+`); the post-processing is applied to
the `ref` entry for every kind whose name begins with `label`. -/
theorem C6_gitlab_label_postprocessing :
    (∀ ns pj u : List Char,
       GitLab.get_refs ⟨ns, pj, u⟩ "labels_multi_word" ("~\"needs review\"".toList) =
         some [⟨"~\"needs review\"".toList,
                u ++ ("/".toList ++ (ns ++ ("/".toList ++
                  (pj ++ "/issues?label_name[]=needs+review".toList))))⟩]) ∧
    labelXform ("\"needs review\"".toList) = "needs+review".toList ∧
    (∀ (gl : GitLab) (rt : String) (d : Dict) (s : List Char),
       pyStartsWith rt "label" = true → List.lookup "ref" d = some (some s) →
       ∃ d', gl.updateDict rt d = some d' ∧
         List.lookup "ref" d' = some (some (labelXform s))) := by
  refine ⟨?_, by decide, ?_⟩
  · intro ns pj u
    rfl
  · intro gl rt d s hlab href
    obtain ⟨_, _, _, hr⟩ := github_update_spec ⟨gl.nspace, gl.project, gl.url⟩ d
    refine ⟨dset (GitHub.updateDict ⟨gl.nspace, gl.project, gl.url⟩ d) "ref" (labelXform s),
      ?_, ?_⟩
    · rw [gitlab_update_eq, if_pos hlab, hr, href]
    · rw [dset_lookup_self]

/-- C6 witness: the post-processing conjunct applied to the kind
`labels_ids` and a dictionary holding ref `a b`. -/
theorem C6_gitlab_label_postprocessing_witness :
    ∃ d', GitLab.updateDict ⟨"n".toList, "p".toList, "u".toList⟩ "labels_ids"
        [("ref", some ("a b".toList))] = some d' ∧
      List.lookup "ref" d' = some (some (labelXform ("a b".toList))) :=
  C6_gitlab_label_postprocessing.2.2 ⟨"n".toList, "p".toList, "u".toList⟩
    "labels_ids" [("ref", some ("a b".toList))] ("a b".toList) (by decide) rfl

/-- C10 witness: the GitHub conjunct applied to a `groupdict()`-style
dictionary with empty namespace, and the GitLab conjuncts applied to a label
kind and a non-label kind. -/
theorem C10_build_ref_url_mutates_match_dict_witness :
    (pyFalsy (dget [("namespace", none), ("project", some ("p".toList)),
        ("ref", some ("1".toList))] "namespace") = true ∧
      List.lookup "namespace"
        (GitHub.updateDict ⟨"N".toList, "P".toList, "U".toList⟩
          [("namespace", none), ("project", some ("p".toList)),
           ("ref", some ("1".toList))]) = some (some ("N".toList))) ∧
    (∃ d', GitLab.updateDict ⟨"N".toList, "P".toList, "U".toList⟩ "labels_one_word"
        [("ref", some ("a b".toList))] = some d' ∧
      List.lookup "ref" d' = some (some (labelXform ("a b".toList))) ∧
      List.lookup "base_url" d' = some (some ("U".toList))) ∧
    (∃ d', GitLab.updateDict ⟨"N".toList, "P".toList, "U".toList⟩ "issues"
        [("ref", some ("1".toList))] = some d' ∧
      List.lookup "base_url" d' = some (some ("U".toList)) ∧
      (List.lookup "base_url" [(("ref" : String), some ("1".toList))] = none → d' ≠ [("ref", some ("1".toList))])) := by
  refine ⟨⟨by decide, ?_⟩, ?_, ?_⟩
  · exact ((C10_build_ref_url_mutates_match_dict.1 ⟨"N".toList, "P".toList, "U".toList⟩
      [("namespace", none), ("project", some ("p".toList)),
       ("ref", some ("1".toList))]).2.1 (by decide))
  · exact (C10_build_ref_url_mutates_match_dict.2.1 ⟨"N".toList, "P".toList, "U".toList⟩
      "labels_one_word" [("ref", some ("a b".toList))] ("a b".toList) (by decide) rfl)
  · exact (C10_build_ref_url_mutates_match_dict.2.2 ⟨"N".toList, "P".toList, "U".toList⟩
      "issues" [("ref", some ("1".toList))] (by decide))

theorem mrun_caps_nil_of_no_groups {re : RE} (h : groupNames re = [])
    {p : Nat} {s : List Char} {cp : Caps} {r : Nat × List Char × Caps}
    (hr : r ∈ mrun re p s cp) : r.2.2 = cp := by
  obtain ⟨ext, he, hn⟩ := mrun_mem_caps re p s cp r hr
  have hext : ext = [] := by
    apply List.eq_nil_iff_forall_not_mem.mpr
    intro kv hkv
    have := hn kv hkv
    rw [h] at this
    simp at this
  rw [he, hext, List.append_nil]

/-- Capture soundness for the single-word token kinds: every result of the
`BB + NP? + ONE_WORD` pattern carries a `ref` capture whose value contains at
least one character of the class `[-a-z_ ]` (case-insensitive). -/
theorem oneWord_capture {sym : Char} {p : Nat} {s : List Char} {cp : Caps}
    {r : Nat × List Char × Caps} (hr : r ∈ mrun (oneWordKindRE sym) p s cp) :
    ∃ ext v, r.2.2 = cp ++ (ext ++ [("ref", v)]) ∧
      (∀ kv ∈ ext, kv.1 = "namespace" ∨ kv.1 = "project") ∧
      ∃ c ∈ v, isOneWordMid c = true := by
  have h0 : r ∈ (mrun RefRe.BB p s cp).flatMap
      (fun x => mrun (.seq RefRe.NPq (RefRe.ONE_WORD sym)) x.1 x.2.1 x.2.2) := hr
  obtain ⟨r1, h1, hr1⟩ := List.mem_flatMap.mp h0
  have h0b : r ∈ (mrun RefRe.NPq r1.1 r1.2.1 r1.2.2).flatMap
      (fun x => mrun (RefRe.ONE_WORD sym) x.1 x.2.1 x.2.2) := hr1
  obtain ⟨r2, h2, hr2⟩ := List.mem_flatMap.mp h0b
  have h0c : r ∈ (mrun (.ch sym) r2.1 r2.2.1 r2.2.2).flatMap
      (fun x => mrun (.grp "ref"
        (.seq (.rep isWordChar 0 none)
          (.seq (.cls isOneWordMid) (.rep isWordDash 0 none)))) x.1 x.2.1 x.2.2) := hr2
  obtain ⟨r3, h3, hr3⟩ := List.mem_flatMap.mp h0c
  obtain ⟨rc, hcore0, hre⟩ := List.mem_map.mp hr3
  have hcore : rc ∈ (mrun (.rep isWordChar 0 none) r3.1 r3.2.1 r3.2.2).flatMap
      (fun x => mrun (.seq (.cls isOneWordMid) (.rep isWordDash 0 none))
        x.1 x.2.1 x.2.2) := hcore0
  obtain ⟨ra, hak, hra⟩ := List.mem_flatMap.mp hcore
  have hrepa : ra ∈ (candDesc 0 (leadingCount isWordChar r3.2.1)).map
      (fun k => (r3.1 + k, r3.2.1.drop k, r3.2.2)) := hak
  obtain ⟨k1, _, rfl⟩ := List.mem_map.mp hrepa
  obtain ⟨rb, hb, hrb⟩ := List.mem_flatMap.mp hra
  cases hdk : r3.2.1.drop k1 with
  | nil =>
    rw [hdk] at hb
    simp [mrun] at hb
  | cons c cs =>
    rw [hdk] at hb
    by_cases hmc : isOneWordMid c = true
    · rw [show mrun (.cls isOneWordMid) (r3.1 + k1) (c :: cs) r3.2.2 =
          (if isOneWordMid c then [(r3.1 + k1 + 1, cs, r3.2.2)] else []) from rfl,
        if_pos hmc] at hb
      simp only [List.mem_singleton] at hb
      subst hb
      have hrepb : rc ∈ (candDesc 0 (leadingCount isWordDash cs)).map
          (fun k => (r3.1 + k1 + 1 + k, cs.drop k, r3.2.2)) := hrb
      obtain ⟨k2, _, rfl⟩ := List.mem_map.mp hrepb
      -- the captured value
      have hv : r3.2.1.take (r3.1 + k1 + 1 + k2 - r3.1) =
          r3.2.1.take k1 ++ (c :: cs.take k2) := by
        have harith : r3.1 + k1 + 1 + k2 - r3.1 = k1 + (k2 + 1) := by omega
        rw [harith, List.take_add, hdk, List.take_succ_cons]
      have hcmem : c ∈ r3.2.1.take (r3.1 + k1 + 1 + k2 - r3.1) := by
        rw [hv]
        exact List.mem_append.mpr (Or.inr (List.mem_cons_self _ _))
      -- the capture chain
      obtain ⟨e1, he1, hn1⟩ := mrun_mem_caps _ _ _ _ _ h1
      obtain ⟨e2, he2, hn2⟩ := mrun_mem_caps _ _ _ _ _ h2
      obtain ⟨e3, he3, hn3⟩ := mrun_mem_caps _ _ _ _ _ h3
      have he1nil : e1 = [] := by
        apply List.eq_nil_iff_forall_not_mem.mpr
        intro kv hkv
        have := hn1 kv hkv
        simp [RefRe.BB, groupNames] at this
      have he3nil : e3 = [] := by
        apply List.eq_nil_iff_forall_not_mem.mpr
        intro kv hkv
        have := hn3 kv hkv
        simp [groupNames] at this
      refine ⟨e2, r3.2.1.take (r3.1 + k1 + 1 + k2 - r3.1), ?_, ?_, c, hcmem, hmc⟩
      · rw [← hre]
        simp only
        rw [he3, he2, he1, he1nil, he3nil, List.append_nil, List.append_nil,
          List.append_assoc]
      · intro kv hkv
        have := hn2 kv hkv
        simp only [RefRe.NPq, groupNames, List.mem_append, List.mem_singleton,
          List.mem_cons, List.not_mem_nil, or_false] at this
        tauto
    · rw [show mrun (.cls isOneWordMid) (r3.1 + k1) (c :: cs) r3.2.2 =
          (if isOneWordMid c then [(r3.1 + k1 + 1, cs, r3.2.2)] else []) from rfl,
        if_neg hmc] at hb
      simp at hb

/-- C5 counterexample: on `",#1"` the issues match's consumed span starts at
position 0 — the comma, a boundary-before character, is consumed as part of
the regex match (the claim says the span begins at the reference itself,
i.e. at position 1) — and the returned reference text `",#1"` begins with
that boundary character. -/
theorem C5_counterexample_boundary_consumed :
    parseRefs GitHub.REF "issues" (",#1".toList) =
      [⟨0, 3, [("namespace", none), ("project", none), ("ref", some ("1".toList))]⟩] ∧
    GitHub.get_refs ⟨"o".toList, "p".toList, "u".toList⟩ "issues" (",#1".toList) =
      some [⟨",#1".toList, "u/o/p/issues/1".toList⟩] ∧
    (",#1".toList).head? = some ',' ∧ isBlankBC ',' = true := by
  refine ⟨by decide, by decide, by decide, by decide⟩

/-- C5 amended: the boundary-before character, when it is a whitespace or
comma, IS consumed as part of the regex match — every match starts at
position 0 or at a consumed boundary character; the returned text has
surrounding whitespace stripped (so a consumed space never shows) but a
consumed comma remains; two references separated by a single space or comma
are nevertheless both found. -/
theorem C5_boundary_consumption_amended :
    (∀ (tail : RE) (t : List Char) (m : PyMatch),
       m ∈ pyMatches (.seq RefRe.BB tail) t →
       m.start = 0 ∨ ∃ c cs, t.drop m.start = c :: cs ∧ isBlankBC c = true) ∧
    (parseRefs GitHub.REF "issues" ("#1 #2".toList)).length = 2 ∧
    (parseRefs GitHub.REF "issues" ("#1,#2".toList)).length = 2 ∧
    GitHub.get_refs ⟨"o".toList, "p".toList, "u".toList⟩ "issues" (" #1".toList) =
      some [⟨"#1".toList, "u/o/p/issues/1".toList⟩] ∧
    GitHub.get_refs ⟨"o".toList, "p".toList, "u".toList⟩ "issues" (",#1".toList) =
      some [⟨",#1".toList, "u/o/p/issues/1".toList⟩] := by
  exact ⟨fun tail t m hm => pyMatches_BB_start hm, by decide, by decide, by decide,
    by decide⟩

/-- C5 amended witness: the match of `",#1"` instantiates the universal
conjunct — it starts at position 0, where the consumed comma sits. -/
theorem C5_boundary_consumption_amended_witness :
    (⟨0, 3, [("namespace", none), ("project", none), ("ref", some ("1".toList))]⟩ :
        PyMatch).start = 0 ∨
      ∃ c cs, ((",#1".toList).drop (⟨0, 3, [("namespace", none), ("project", none),
        ("ref", some ("1".toList))]⟩ : PyMatch).start) = c :: cs ∧ isBlankBC c = true :=
  C5_boundary_consumption_amended.1 (.seq RefRe.NPq (RefRe.ID '#')) (",#1".toList)
    ⟨0, 3, [("namespace", none), ("project", none), ("ref", some ("1".toList))]⟩
    (by decide)

/-- C8 counterexample: the reference text of the match in `",#1"` is
`",#1"`, not `"#1"` — `str.strip()` removes only whitespace, so the leading
comma consumed by the boundary fragment is not stripped. -/
theorem C8_counterexample_comma_kept :
    GitHub.get_refs ⟨"o".toList, "p".toList, "u".toList⟩ "issues" (",#1".toList) =
      some [⟨",#1".toList, "u/o/p/issues/1".toList⟩] ∧
    (",#1".toList) ≠ ("#1".toList) := by
  refine ⟨by decide, by decide⟩

/-- C8 amended: the text field is the exact matched substring with
surrounding *whitespace* stripped — it never starts or ends with whitespace
— but surrounding punctuation such as a comma consumed by the boundary
fragment is kept, so the match in `",#1"` has text `",#1"`. -/
theorem C8_text_whitespace_stripped_amended :
    (∀ (g : GitHub) (rt : String) (t : List Char) (rs : List Ref) (r : Ref),
       GitHub.get_refs g rt t = some rs → r ∈ rs →
       (∀ c, r.ref.head? = some c → isPySpace c = false) ∧
       (∀ c, r.ref.getLast? = some c → isPySpace c = false)) ∧
    (∀ (g : GitLab) (rt : String) (t : List Char) (rs : List Ref) (r : Ref),
       GitLab.get_refs g rt t = some rs → r ∈ rs →
       (∀ c, r.ref.head? = some c → isPySpace c = false) ∧
       (∀ c, r.ref.getLast? = some c → isPySpace c = false)) ∧
    GitHub.get_refs ⟨"o".toList, "p".toList, "u".toList⟩ "issues" (" #1 ".toList) =
      some [⟨"#1".toList, "u/o/p/issues/1".toList⟩] ∧
    GitHub.get_refs ⟨"o".toList, "p".toList, "u".toList⟩ "issues" (",#1".toList) =
      some [⟨",#1".toList, "u/o/p/issues/1".toList⟩] := by
  refine ⟨?_, ?_, by decide, by decide⟩
  · intro g rt t rs r hrs hr
    unfold GitHub.get_refs at hrs
    obtain ⟨m, _, hfm⟩ := mapM_option_mem _ _ _ hrs r hr
    cases hbu : g.build_ref_url rt m.gdict with
    | none =>
      rw [hbu] at hfm
      simp at hfm
    | some u =>
      rw [hbu] at hfm
      simp only [Option.map_some', Option.some.injEq] at hfm
      subst hfm
      exact ⟨fun c hc => pyStrip_head_not_space hc,
        fun c hc => pyStrip_getLast_not_space hc⟩
  · intro g rt t rs r hrs hr
    unfold GitLab.get_refs at hrs
    obtain ⟨m, _, hfm⟩ := mapM_option_mem _ _ _ hrs r hr
    cases hbu : g.build_ref_url rt m.gdict with
    | none =>
      rw [hbu] at hfm
      simp at hfm
    | some u =>
      rw [hbu] at hfm
      simp only [Option.map_some', Option.some.injEq] at hfm
      subst hfm
      exact ⟨fun c hc => pyStrip_head_not_space hc,
        fun c hc => pyStrip_getLast_not_space hc⟩

/-- C8 amended witness: applying the universal conjunct to the concrete
match of `",#1"`, whose text starts with the comma, shows in particular that
that first character is not whitespace. -/
theorem C8_text_whitespace_stripped_amended_witness : isPySpace ',' = false :=
  (C8_text_whitespace_stripped_amended.1 ⟨"o".toList, "p".toList, "u".toList⟩
    "issues" (",#1".toList) [⟨",#1".toList, "u/o/p/issues/1".toList⟩]
    ⟨",#1".toList, "u/o/p/issues/1".toList⟩ (by decide) (by decide)).1 ',' rfl

/-- C9 counterexample: GitLab's labels_one_word kind on `"~1 2"` captures the
ref `"1 2"`, which contains a space and no lowercase letter, hyphen or
underscore — the class `[-a-z_ ]` of the single-word fragment also contains
a space, so the claim's "single word with at least one lowercase letter,
hyphen, or underscore; never contains a space" is false on the code. -/
theorem C9_counterexample_one_word_with_space :
    parseRefs GitLab.REF "labels_one_word" ("~1 2".toList) =
      [⟨0, 4, [("namespace", none), ("project", none), ("ref", some ("1 2".toList))]⟩] ∧
    ' ' ∈ ("1 2".toList) ∧
    (∀ c ∈ ("1 2".toList), ¬(c.isLower = true ∨ c = '-' ∨ c = '_')) := by
  refine ⟨by decide, by decide, by decide⟩

/-- C9 amended: every ref captured by a single-word token kind
(labels_one_word, milestones_one_word) contains at least one character of
the class `[-a-z_ ]` matched case-insensitively — a hyphen, a letter of
either case, an underscore, or a space — and therefore never consists solely
of digits; it may however contain spaces and need not contain a lowercase
letter. -/
theorem C9_one_word_ref_never_pure_numeric :
    (∀ t : List Char, parseRefs GitLab.REF "labels_one_word" t =
       pyMatches (oneWordKindRE '~') t) ∧
    (∀ t : List Char, parseRefs GitLab.REF "milestones_one_word" t =
       pyMatches (oneWordKindRE '%') t) ∧
    (∀ (sym : Char) (t : List Char) (m : PyMatch),
       m ∈ pyMatches (oneWordKindRE sym) t →
       ∃ v, List.lookup "ref" m.gdict = some (some v) ∧
         (∃ c ∈ v, isOneWordMid c = true) ∧ ¬(∀ c ∈ v, c.isDigit = true)) := by
  refine ⟨fun t => rfl, fun t => rfl, ?_⟩
  intro sym t m hm
  unfold pyMatches at hm
  obtain ⟨raw, hraw, hmap⟩ := List.mem_map.mp hm
  obtain ⟨q, r, rest, _, hrun, hme⟩ := scanF_mem _ _ _ _ raw hraw
  have hhead : r ∈ mrun (oneWordKindRE sym) q (t.drop (q - 0)) [] := by
    rw [hrun]
    exact List.mem_cons_self _ _
  obtain ⟨ext, v, hcaps, hkeys, c, hcv, hmc⟩ := oneWord_capture hhead
  have hgd : m.gdict = [("namespace", List.lookup "namespace" r.2.2),
      ("project", List.lookup "project" r.2.2), ("ref", List.lookup "ref" r.2.2)] := by
    rw [← hmap, hme]
    rfl
  refine ⟨v, ?_, ⟨c, hcv, hmc⟩, ?_⟩
  · rw [hgd]
    have hstep : List.lookup "ref"
        ([("namespace", List.lookup "namespace" r.2.2),
          ("project", List.lookup "project" r.2.2),
          ("ref", List.lookup "ref" r.2.2)] :
            List (String × Option (List Char))) =
        some (List.lookup "ref" r.2.2) := rfl
    rw [hstep, hcaps, List.nil_append, lookup_append]
    have hnone : List.lookup "ref" ext = none := by
      apply lookup_eq_none_of_keys
      intro kv hkv
      rcases hkeys kv hkv with h | h <;> (rw [h]; decide)
    rw [hnone]
    rfl
  · intro hall
    have hd := hall c hcv
    rw [mid_not_digit hmc] at hd
    cases hd

/-- C9 amended witness: the `"~1 2"` match instantiates the universal
conjunct; the decidable consequence extracted here is that its ref value is
not made of digits only. -/
theorem C9_one_word_ref_never_pure_numeric_witness :
    ¬(∀ c ∈ ("1 2".toList), c.isDigit = true) := by
  obtain ⟨v, hv, _, hnd⟩ := C9_one_word_ref_never_pure_numeric.2.2 '~' ("~1 2".toList)
    ⟨0, 4, [("namespace", none), ("project", none), ("ref", some ("1 2".toList))]⟩
    (by decide)
  have : v = "1 2".toList := by
    have : some (some ("1 2".toList)) = some (some v) := by
      rw [← hv]
      decide
    simpa using this.symm
  rw [← this]
  exact hnd

theorem mrun_ch_nil (d : Char) (p : Nat) (cp : Caps) : mrun (.ch d) p [] cp = [] := rfl

theorem mrun_ch_not_head {d c : Char} (hne : ¬(c = d)) (p : Nat) (cs : List Char)
    (cp : Caps) : mrun (.ch d) p (c :: cs) cp = [] := by
  show (if c = d then [(p + 1, cs, cp)] else []) = []
  rw [if_neg hne]

theorem mrun_cls_nil (f : Char → Bool) (p : Nat) (cp : Caps) :
    mrun (.cls f) p [] cp = [] := rfl

theorem mrun_cls_not_head {f : Char → Bool} {c : Char} (hf : f c = false) (p : Nat)
    (cs : List Char) (cp : Caps) : mrun (.cls f) p (c :: cs) cp = [] := by
  show (if f c then [(p + 1, cs, cp)] else []) = []
  simp [hf]

/-- A `[-\w]+` group followed by a mandatory character that is not a
lowercase-hex character can never match inside an all-lowercase-hex text. -/
theorem wordGrp_then_char_absurd {s : List Char} {ban : Char} {n : String}
    (hs : ∀ c ∈ s, isLowerHex c = true)
    (hban : ∀ c, isLowerHex c = true → c ≠ ban)
    {p : Nat} {cp : Caps} {r1 r : Nat × List Char × Caps}
    (h1 : r1 ∈ mrun (.grp n (.rep isWordDash 1 none)) p s cp)
    (h2 : r ∈ mrun (.ch ban) r1.1 r1.2.1 r1.2.2) : False := by
  obtain ⟨rr, hrr, hge⟩ := List.mem_map.mp h1
  obtain ⟨k, _, rfl⟩ := List.mem_map.mp
    (show rr ∈ (candDesc 1 (leadingCount isWordDash s)).map
      (fun j => (p + j, s.drop j, cp)) from hrr)
  rw [← hge] at h2
  dsimp only at h2
  cases hdk : s.drop k with
  | nil =>
    rw [hdk, mrun_ch_nil] at h2
    simp at h2
  | cons c cs =>
    rw [hdk] at h2
    have hcmem : c ∈ s :=
      List.mem_of_mem_drop (by rw [hdk]; exact List.mem_cons_self _ _)
    rw [mrun_ch_not_head (hban c (hs c hcmem)) _ _ _] at h2
    simp at h2

/-- The optional `(?:namespace/)?project@` prefix of the commit patterns can
never match inside an all-lowercase-hex text (no `/` or `@` occurs). -/
theorem np_at_fail {s : List Char} (hs : ∀ c ∈ s, isLowerHex c = true)
    (p : Nat) (cp : Caps) : mrun (.seq RefRe.NP (.ch '@')) p s cp = [] := by
  apply List.eq_nil_iff_forall_not_mem.mpr
  intro r hr
  obtain ⟨r1, h1, h2⟩ := List.mem_flatMap.mp
    (show r ∈ (mrun RefRe.NP p s cp).flatMap
      (fun x => mrun (.ch '@') x.1 x.2.1 x.2.2) from hr)
  obtain ⟨rA, hA, h1b⟩ := List.mem_flatMap.mp
    (show r1 ∈ (mrun (.opt (.seq (.grp "namespace" (.rep isWordDash 1 none))
        (.ch '/'))) p s cp).flatMap
      (fun x => mrun (.grp "project" (.rep isWordDash 1 none)) x.1 x.2.1 x.2.2) from h1)
  have hAskip : rA = (p, s, cp) := by
    rcases List.mem_append.mp
      (show rA ∈ mrun (.seq (.grp "namespace" (.rep isWordDash 1 none)) (.ch '/'))
          p s cp ++ [(p, s, cp)] from hA) with hA' | hA'
    · obtain ⟨rg, hg, hch⟩ := List.mem_flatMap.mp hA'
      exact (wordGrp_then_char_absurd hs (fun c h => lhex_ne_slash h) hg hch).elim
    · simpa using hA'
  subst hAskip
  exact wordGrp_then_char_absurd hs (fun c h => lhex_ne_at h) h1b h2

/-- At a nonzero position inside a text whose suffix is empty or starts with
a non-boundary character, a `BB`-headed pattern cannot match. -/
theorem mrun_BBseq_fail {tail : RE} {p : Nat} {s : List Char} {cp : Caps} (hp : p ≠ 0)
    (hs : s = [] ∨ ∃ c cs, s = c :: cs ∧ isBlankBC c = false) :
    mrun (.seq RefRe.BB tail) p s cp = [] := by
  apply List.eq_nil_iff_forall_not_mem.mpr
  intro r hr
  rcases mem_mrun_BB_seq hr with h | ⟨c, cs, hsc, hbc⟩
  · exact hp h
  · rcases hs with hnil | ⟨c', cs', hsc', hbc'⟩
    · rw [hnil] at hsc
      cases hsc
    · rw [hsc'] at hsc
      injection hsc with hc _
      rw [hc] at hbc'
      rw [hbc'] at hbc
      cases hbc

/-- At a nonzero position, the commit pattern cannot match inside an
all-lowercase-hex text. -/
theorem commits_scan_tail_fail {m : Nat} {t : List Char}
    (ht : ∀ c ∈ t, isLowerHex c = true) (p : Nat) (hp : p ≠ 0) (i : Nat) :
    mrun (commitsRE m) p (t.drop i) [] = [] := by
  apply mrun_BBseq_fail hp
  cases hdk : t.drop i with
  | nil => exact Or.inl rfl
  | cons c cs =>
    refine Or.inr ⟨c, cs, rfl, ?_⟩
    exact lhex_not_blank
      (ht c (List.mem_of_mem_drop (by rw [hdk]; exact List.mem_cons_self _ _)))

/-- The commit pattern on a lone all-lowercase-hex token: at position 0 it
matches the whole token exactly when `m ≤ length ≤ 40`, and captures the
token as `ref`; otherwise nothing matches. -/
theorem commits_mrun_at0 {m : Nat} (hm1 : 1 ≤ m) {t : List Char}
    (ht : ∀ c ∈ t, isLowerHex c = true) :
    mrun (commitsRE m) 0 t [] =
      (if m ≤ t.length ∧ t.length ≤ 40 then [(t.length, [], [("ref", t)])] else []) := by
  have hlc : leadingCount isHexDigitI t = t.length :=
    leadingCount_of_all (fun c hc => lhex_hexI (ht c hc))
  have hBB : mrun RefRe.BB 0 t [] = [(0, t, [])] := by
    show (if (0 : Nat) = 0 then [((0 : Nat), t, ([] : Caps))] else []) ++
      mrun (.cls isBlankBC) 0 t [] = [(0, t, [])]
    rw [if_pos rfl]
    cases t with
    | nil => rfl
    | cons c cs =>
      rw [mrun_cls_not_head (lhex_not_blank (ht c (List.mem_cons_self _ _))) _ _ _]
      rfl
  have hOPT : mrun (.opt (.seq RefRe.NP (.ch '@'))) 0 t [] = [(0, t, [])] := by
    show mrun (.seq RefRe.NP (.ch '@')) 0 t [] ++ [(0, t, [])] = [(0, t, [])]
    rw [np_at_fail ht 0 []]
    rfl
  have hgrp : mrun (RefRe.COMMIT m) 0 t [] =
      (candDesc m (min t.length 40)).map
        (fun k => (k, t.drop k, ([("ref", t.take k)] : Caps))) := by
    have hrep : mrun (.rep isHexDigitI m (some 40)) 0 t [] =
        (candDesc m (min t.length 40)).map (fun k => (0 + k, t.drop k, ([] : Caps))) := by
      show (candDesc m (min (leadingCount isHexDigitI t) 40)).map
        (fun k => (0 + k, t.drop k, ([] : Caps))) = _
      rw [hlc]
    show (mrun (.rep isHexDigitI m (some 40)) 0 t []).map
      (fun r => (r.1, r.2.1, r.2.2 ++ [("ref", t.take (r.1 - 0))])) = _
    rw [hrep, List.map_map]
    apply List.map_congr_left
    intro k _
    simp only [Function.comp_apply, Nat.zero_add, Nat.sub_zero, List.nil_append]
  have hpoint : ∀ k, k ≤ t.length →
      mrun RefRe.BA k (t.drop k) [("ref", t.take k)] =
        (if k = t.length then [(t.length, [], [("ref", t)])] else []) := by
    intro k hk
    by_cases hke : k = t.length
    · subst hke
      rw [List.drop_length, List.take_length, if_pos rfl]
      show mrun (.cls isBlankBC) t.length [] [("ref", t)] ++
        mrun .eos t.length [] [("ref", t)] = _
      rw [mrun_cls_nil]
      rfl
    · have hklt : k < t.length := lt_of_le_of_ne hk hke
      rw [if_neg hke]
      cases hdk : t.drop k with
      | nil => exact absurd (List.drop_eq_nil_iff.mp hdk) (by omega)
      | cons c cs =>
        have hcm : c ∈ t :=
          List.mem_of_mem_drop (by rw [hdk]; exact List.mem_cons_self _ _)
        show mrun (.cls isBlankBC) k (c :: cs) [("ref", t.take k)] ++
          mrun .eos k (c :: cs) [("ref", t.take k)] = []
        rw [mrun_cls_not_head (lhex_not_blank (ht c hcm)) _ _ _]
        rfl
  have hCB : mrun (.seq (RefRe.COMMIT m) RefRe.BA) 0 t [] =
      (if m ≤ t.length ∧ t.length ≤ 40 then [(t.length, [], [("ref", t)])] else []) := by
    show (mrun (RefRe.COMMIT m) 0 t []).flatMap
      (fun x => mrun RefRe.BA x.1 x.2.1 x.2.2) = _
    rw [hgrp, List.flatMap_map]
    by_cases hcond : m ≤ t.length ∧ t.length ≤ 40
    · obtain ⟨hml, h40⟩ := hcond
      rw [if_pos ⟨hml, h40⟩, Nat.min_eq_left h40, candDesc_eq_cons hml (by omega),
        List.flatMap_cons]
      have hfirst := hpoint t.length (le_refl _)
      rw [if_pos rfl] at hfirst
      rw [hfirst]
      have htail : (candDesc m (t.length - 1)).flatMap
          (fun k => mrun RefRe.BA k (t.drop k) [("ref", t.take k)]) = [] := by
        apply List.flatMap_eq_nil_iff.mpr
        intro k hkmem
        obtain ⟨hk1, hk2⟩ := candDesc_mem.mp hkmem
        have := hpoint k (by omega)
        rw [if_neg (by omega)] at this
        exact this
      rw [htail, List.append_nil]
    · rw [if_neg hcond]
      have hminle := Nat.min_le_left t.length 40
      by_cases hlen : t.length < m
      · rw [candDesc_eq_nil (by omega)]
        rfl
      · have h40 : 40 < t.length := by omega
        rw [Nat.min_eq_right (by omega)]
        apply List.flatMap_eq_nil_iff.mpr
        intro k hkmem
        obtain ⟨hk1, hk2⟩ := candDesc_mem.mp hkmem
        have := hpoint k (by omega)
        rw [if_neg (by omega)] at this
        exact this
  show (mrun RefRe.BB 0 t []).flatMap
    (fun x => mrun (.seq (.opt (.seq RefRe.NP (.ch '@')))
      (.seq (RefRe.COMMIT m) RefRe.BA)) x.1 x.2.1 x.2.2) = _
  rw [hBB]
  simp only [List.flatMap_cons, List.flatMap_nil, List.append_nil]
  show (mrun (.opt (.seq RefRe.NP (.ch '@'))) 0 t []).flatMap
    (fun x => mrun (.seq (RefRe.COMMIT m) RefRe.BA) x.1 x.2.1 x.2.2) = _
  rw [hOPT]
  simp only [List.flatMap_cons, List.flatMap_nil, List.append_nil]
  exact hCB

/-- Evaluation of `finditer` of the commit pattern over a lone all-lowercase-hex token. -/
theorem commits_pyMatches {m : Nat} (hm1 : 1 ≤ m) {t : List Char}
    (ht : ∀ c ∈ t, isLowerHex c = true) :
    pyMatches (commitsRE m) t =
      (if m ≤ t.length ∧ t.length ≤ 40 then
        [⟨0, t.length, [("namespace", none), ("project", none), ("ref", some t)]⟩]
      else []) := by
  have hscan : scanF (t.length + 1) (commitsRE m) 0 t =
      (if m ≤ t.length ∧ t.length ≤ 40 then [(0, t.length, [("ref", t)])] else []) := by
    by_cases hcond : m ≤ t.length ∧ t.length ≤ 40
    · rw [if_pos hcond, scanF_succ, commits_mrun_at0 hm1 ht, if_pos hcond]
      dsimp only
      have hne : ¬(t.length = 0) := by omega
      rw [if_neg hne]
      have hrest : scanF t.length (commitsRE m) t.length [] = [] := by
        apply scanF_eq_nil
        intro i
        rw [List.drop_nil]
        have h0 : ([] : List Char) = ([] : List Char).drop 0 := rfl
        rw [h0]
        exact commits_scan_tail_fail (t := []) (by simp) _ (by omega) 0
      rw [hrest]
    · rw [if_neg hcond]
      apply scanF_eq_nil
      intro i
      cases i with
      | zero =>
        show mrun (commitsRE m) (0 + 0) (t.drop 0) [] = []
        rw [Nat.add_zero, List.drop_zero, commits_mrun_at0 hm1 ht, if_neg hcond]
      | succ j =>
        show mrun (commitsRE m) (0 + (j + 1)) (t.drop (j + 1)) [] = []
        rw [Nat.zero_add]
        exact commits_scan_tail_fail ht _ (by omega) _
  unfold pyMatches
  rw [hscan]
  by_cases hcond : m ≤ t.length ∧ t.length ≤ 40
  · rw [if_pos hcond, if_pos hcond]
    rfl
  · rw [if_neg hcond, if_neg hcond]
    rfl

/-- C3: for a lone lowercase-hex token, GitHub's commits kind never matches
6 characters, matches exactly 7 and exactly 40 in full, and does not match
41 at all (the boundary-after fragment rejects a 40-character prefix of a
longer token); GitLab behaves the same with minimum length 8. -/
theorem C3_commit_hash_length_boundaries :
    ∀ t : List Char, (∀ c ∈ t, isLowerHex c = true) →
      (t.length = 6 → parseRefs GitHub.REF "commits" t = []) ∧
      (t.length = 7 → parseRefs GitHub.REF "commits" t =
        [⟨0, 7, [("namespace", none), ("project", none), ("ref", some t)]⟩]) ∧
      (t.length = 40 → parseRefs GitHub.REF "commits" t =
        [⟨0, 40, [("namespace", none), ("project", none), ("ref", some t)]⟩]) ∧
      (t.length = 41 → parseRefs GitHub.REF "commits" t = []) ∧
      (t.length = 7 → parseRefs GitLab.REF "commits" t = []) ∧
      (t.length = 8 → parseRefs GitLab.REF "commits" t =
        [⟨0, 8, [("namespace", none), ("project", none), ("ref", some t)]⟩]) ∧
      (t.length = 40 → parseRefs GitLab.REF "commits" t =
        [⟨0, 40, [("namespace", none), ("project", none), ("ref", some t)]⟩]) ∧
      (t.length = 41 → parseRefs GitLab.REF "commits" t = []) := by
  intro t ht
  have hgh : parseRefs GitHub.REF "commits" t = pyMatches (commitsRE 7) t := rfl
  have hgl : parseRefs GitLab.REF "commits" t = pyMatches (commitsRE 8) t := rfl
  refine ⟨?_, ?_, ?_, ?_, ?_, ?_, ?_, ?_⟩ <;> intro hlen
  · rw [hgh, commits_pyMatches (by omega) ht, if_neg (by omega)]
  · rw [hgh, commits_pyMatches (by omega) ht, if_pos (by omega), hlen]
  · rw [hgh, commits_pyMatches (by omega) ht, if_pos (by omega), hlen]
  · rw [hgh, commits_pyMatches (by omega) ht, if_neg (by omega)]
  · rw [hgl, commits_pyMatches (by omega) ht, if_neg (by omega)]
  · rw [hgl, commits_pyMatches (by omega) ht, if_pos (by omega), hlen]
  · rw [hgl, commits_pyMatches (by omega) ht, if_pos (by omega), hlen]
  · rw [hgl, commits_pyMatches (by omega) ht, if_neg (by omega)]

/-- C3 witness: concrete lowercase-hex tokens of lengths 6, 7, 8, 40 and 41
run through the theorem. -/
theorem C3_commit_hash_length_boundaries_witness :
    parseRefs GitHub.REF "commits" ("abcdef".toList) = [] ∧
    parseRefs GitHub.REF "commits" ("abcdef1".toList) =
      [⟨0, 7, [("namespace", none), ("project", none),
               ("ref", some ("abcdef1".toList))]⟩] ∧
    parseRefs GitHub.REF "commits" (List.replicate 40 'a') =
      [⟨0, 40, [("namespace", none), ("project", none),
                ("ref", some (List.replicate 40 'a'))]⟩] ∧
    parseRefs GitHub.REF "commits" (List.replicate 41 'a') = [] ∧
    parseRefs GitLab.REF "commits" ("abcdef1".toList) = [] ∧
    parseRefs GitLab.REF "commits" ("abcdef12".toList) =
      [⟨0, 8, [("namespace", none), ("project", none),
               ("ref", some ("abcdef12".toList))]⟩] ∧
    parseRefs GitLab.REF "commits" (List.replicate 40 'a') =
      [⟨0, 40, [("namespace", none), ("project", none),
                ("ref", some (List.replicate 40 'a'))]⟩] ∧
    parseRefs GitLab.REF "commits" (List.replicate 41 'a') = [] :=
  ⟨(C3_commit_hash_length_boundaries ("abcdef".toList) (by decide)).1 (by decide),
   (C3_commit_hash_length_boundaries ("abcdef1".toList) (by decide)).2.1 (by decide),
   (C3_commit_hash_length_boundaries (List.replicate 40 'a') (by decide)).2.2.1 (by decide),
   (C3_commit_hash_length_boundaries (List.replicate 41 'a') (by decide)).2.2.2.1 (by decide),
   (C3_commit_hash_length_boundaries ("abcdef1".toList) (by decide)).2.2.2.2.1 (by decide),
   (C3_commit_hash_length_boundaries ("abcdef12".toList) (by decide)).2.2.2.2.2.1 (by decide),
   (C3_commit_hash_length_boundaries (List.replicate 40 'a') (by decide)).2.2.2.2.2.2.1 (by decide),
   (C3_commit_hash_length_boundaries (List.replicate 41 'a') (by decide)).2.2.2.2.2.2.2 (by decide)⟩

end GitChangelog
